import Mathlib

/-!
Verification of the custom in-memory writer of `src/c/stb_image_write.c`:
a growable byte buffer (`WriteContext` + `write_callback`) and two
encode-to-memory adapters (`stb_write_png_to_memory`,
`stb_write_jpg_to_memory`) that drive an external stb encoder through the
callback and hand the accumulated buffer to the caller.

Modelling choices:
- bytes are `Nat`; a C buffer pointer is `Option (List Nat)` (`none` = NULL),
  the list having one entry per allocated byte (length = allocation size);
  uninitialised bytes obtained from a fresh allocation are modelled as `0`.
- `realloc` may fail nondeterministically; an oracle (`Bool` per callback
  invocation, indexed by invocation number) decides whether each attempted
  reallocation succeeds.
- the external encoder (`stbi_write_png_to_func` / `stbi_write_jpg_to_func`)
  is opaque: it is a parameter mapping the image arguments to its overall
  success flag and the list of chunks it pushes through the callback.
- `size_t` arithmetic is `Nat` (no overflow) in the main model; the
  capacity-doubling loop is additionally modelled with arithmetic modulo
  `2 ^ w` (`stepW`, `iterDouble`) to study its termination behaviour.
-/

/-- The `WriteContext` struct: `unsigned char* data; size_t size; size_t capacity;`. -/
structure WriteContext where
  data : Option (List Nat)
  size : Nat
  capacity : Nat
deriving Repr, DecidableEq

/-- The loop `while (new_capacity < ctx->size + size) new_capacity *= 2;`.
The C loop only tests `newCapacity < need`; the `0 < newCapacity` guard is
required for termination in Lean and is never false on the values the code
feeds in (`4096` or `capacity * 2` with `capacity > 0`): when
`newCapacity = 0 < need` the C loop would not terminate at all (that regime
is studied separately with `iterDouble`). -/
def doubleUntil (newCapacity need : Nat) : Nat :=
  if h : 0 < newCapacity ∧ newCapacity < need then
    doubleUntil (newCapacity * 2) need
  else
    newCapacity
termination_by need - newCapacity
decreasing_by omega

/-- `size_t new_capacity = (ctx->capacity == 0) ? 4096 : ctx->capacity * 2;`
followed by the doubling loop. -/
def growCapacity (capacity need : Nat) : Nat :=
  doubleUntil (if capacity = 0 then 4096 else capacity * 2) need

/-- `realloc(ctx->data, new_capacity)` on success: the old block's bytes are
preserved up to `min (old length) newCapacity`; bytes beyond the old block
are uninitialised (modelled as `0`). `realloc(NULL, n)` is `malloc(n)`. -/
def reallocBytes (data : Option (List Nat)) (newCapacity : Nat) : List Nat :=
  let old := data.getD []
  old.take newCapacity ++ List.replicate (newCapacity - old.length) 0

/-- `memcpy(buf + off, chunk, chunk.length)`: overwrite `chunk.length` bytes
of `buf` starting at offset `off`. -/
def storeChunk (buf : List Nat) (off : Nat) (chunk : List Nat) : List Nat :=
  buf.take off ++ chunk ++ buf.drop (off + chunk.length)

/-- `static void write_callback(void* context, void* data, int size)`.
`reallocOk` tells whether the `realloc`, if one is attempted, succeeds.
On `realloc` failure the function returns with the context unchanged.
Otherwise it copies the chunk at offset `size` and advances `size`.
In the no-growth branch with `data = NULL` (reachable only with
`size = capacity = 0` and an empty chunk, where `memcpy` copies 0 bytes)
the pointer stays NULL and only `size` is updated (by 0). -/
def write_callback (reallocOk : Bool) (ctx : WriteContext) (chunk : List Nat) : WriteContext :=
  let n := chunk.length
  if ctx.size + n > ctx.capacity then
    let newCapacity := growCapacity ctx.capacity (ctx.size + n)
    if reallocOk then
      let newData := reallocBytes ctx.data newCapacity
      { data := some (storeChunk newData ctx.size chunk)
        size := ctx.size + n
        capacity := newCapacity }
    else
      ctx
  else
    match ctx.data with
    | none => { ctx with size := ctx.size + n }
    | some buf => { ctx with data := some (storeChunk buf ctx.size chunk), size := ctx.size + n }

/-- `WriteContext ctx = { NULL, 0, 0 };` -/
def emptyContext : WriteContext := { data := none, size := 0, capacity := 0 }

/-- The sequence of callback invocations the encoder performs: invocation
number `i` (starting from the given index) appends chunk `i`, with
`reallocOk i` deciding its reallocation's success. -/
def runAppends (reallocOk : Nat → Bool) : Nat → WriteContext → List (List Nat) → WriteContext
  | _, ctx, [] => ctx
  | i, ctx, chunk :: rest =>
      runAppends reallocOk (i + 1) (write_callback (reallocOk i) ctx chunk) rest

/-- Observable outcome of an adapter call: the `int` return value, the two
caller slots (`none` = left untouched), and whether `free(ctx.data)` ran. -/
structure AdapterResult where
  ret : Nat
  output : Option (List Nat)
  output_len : Option Nat
  freed : Bool
deriving Repr, DecidableEq

/-- `int stb_write_png_to_memory(unsigned char** output, size_t* output_len,
int w, int h, int comp, const void* data, int stride_in_bytes)`.
The external `stbi_write_png_to_func` is opaque: given the image arguments
it reports success and the chunks it feeds to `write_callback`. -/
def stb_write_png_to_memory
    (stbi_write_png_to_func : Int → Int → Int → List Nat → Int → Bool × List (List Nat))
    (reallocOk : Nat → Bool)
    (w h comp : Int) (data : List Nat) (stride_in_bytes : Int) : AdapterResult :=
  let encoded := stbi_write_png_to_func w h comp data stride_in_bytes
  let ctx := runAppends reallocOk 0 emptyContext encoded.2
  if encoded.1 ∧ 0 < ctx.size then
    { ret := 1, output := ctx.data, output_len := some ctx.size, freed := false }
  else
    { ret := 0, output := none, output_len := none, freed := ctx.data.isSome }

/-- `int stb_write_jpg_to_memory(unsigned char** output, size_t* output_len,
int w, int h, int comp, const void* data, int quality)`. -/
def stb_write_jpg_to_memory
    (stbi_write_jpg_to_func : Int → Int → Int → List Nat → Int → Bool × List (List Nat))
    (reallocOk : Nat → Bool)
    (w h comp : Int) (data : List Nat) (quality : Int) : AdapterResult :=
  let encoded := stbi_write_jpg_to_func w h comp data quality
  let ctx := runAppends reallocOk 0 emptyContext encoded.2
  if encoded.1 ∧ 0 < ctx.size then
    { ret := 1, output := ctx.data, output_len := some ctx.size, freed := false }
  else
    { ret := 0, output := none, output_len := none, freed := ctx.data.isSome }

/-- The bytes reachable through `ctx.data` (`[]` when NULL). -/
def dataBytes (ctx : WriteContext) : List Nat := ctx.data.getD []

/-- Sum of the chunk sizes of a callback sequence. -/
def sumSizes (chunks : List (List Nat)) : Nat := (chunks.map List.length).sum

/-- Number of bytes a single `write_callback` invocation actually copies into
the buffer: `0` when growth is needed but `realloc` fails, the full chunk
length otherwise. -/
def appendedBy (reallocOk : Bool) (ctx : WriteContext) (chunk : List Nat) : Nat :=
  if ctx.size + chunk.length > ctx.capacity ∧ reallocOk = false then 0 else chunk.length

/-- Total number of bytes actually appended across a callback sequence. -/
def totalAppended (reallocOk : Nat → Bool) : Nat → WriteContext → List (List Nat) → Nat
  | _, _, [] => 0
  | i, ctx, chunk :: rest =>
      appendedBy (reallocOk i) ctx chunk
        + totalAppended reallocOk (i + 1) (write_callback (reallocOk i) ctx chunk) rest

/-- The `WriteContext` invariant stated in the spec: `size ≤ capacity`, and
`data` is non-null whenever `capacity > 0`. -/
def ctxInv (ctx : WriteContext) : Prop :=
  ctx.size ≤ ctx.capacity ∧ (0 < ctx.capacity → ctx.data.isSome = true)

/-- Full representation invariant tying byte content to the abstract list of
bytes appended so far: `size` counts them, they are the first `size` bytes
of the buffer, and the buffer's length is exactly `capacity`. -/
def goodCtx (ctx : WriteContext) (content : List Nat) : Prop :=
  ctx.size = content.length ∧ ctx.size ≤ ctx.capacity ∧
    ((ctx.data = none ∧ ctx.capacity = 0) ∨
      ∃ buf, ctx.data = some buf ∧ buf.length = ctx.capacity ∧ buf.take ctx.size = content)

/-- One step of the doubling loop under `size_t` arithmetic modulo `2 ^ w`:
`new_capacity *= 2;`. -/
def stepW (w c : Nat) : Nat := c * 2 % 2 ^ w

/-- `k` iterations of the modulo-`2 ^ w` doubling step. -/
def iterDouble (w : Nat) : Nat → Nat → Nat
  | 0, c => c
  | k + 1, c => iterDouble w k (stepW w c)

/-- The loop's starting value under arithmetic modulo `2 ^ w`:
`(ctx->capacity == 0) ? 4096 : ctx->capacity * 2`. -/
def startW (w capacity : Nat) : Nat :=
  if capacity = 0 then 4096 % 2 ^ w else capacity * 2 % 2 ^ w

/-- The doubling loop never shrinks its argument. -/
theorem le_doubleUntil (c need : Nat) : c ≤ doubleUntil c need := by
  rw [doubleUntil]
  split
  · next h => exact le_trans (by omega) (le_doubleUntil (c * 2) need)
  · exact le_rfl
termination_by need - c
decreasing_by omega

/-- Started from a positive value, the doubling loop reaches the target. -/
theorem need_le_doubleUntil (c need : Nat) (hc : 0 < c) : need ≤ doubleUntil c need := by
  rw [doubleUntil]
  split
  · next h => exact need_le_doubleUntil (c * 2) need (by omega)
  · next h => omega
termination_by need - c
decreasing_by omega

/-- The loop's result is the start value doubled some minimal number of
times: every strictly earlier number of doublings still falls short of the
target. -/
theorem doubleUntil_pow (c need : Nat) (hc : 0 < c) :
    ∃ k, doubleUntil c need = c * 2 ^ k ∧ ∀ j, j < k → c * 2 ^ j < need := by
  rw [doubleUntil]
  split
  · next h =>
    obtain ⟨k, hk, hmin⟩ := doubleUntil_pow (c * 2) need (by omega)
    refine ⟨k + 1, ?_, ?_⟩
    · rw [hk]; ring
    · intro j hj
      cases j with
      | zero => simpa using h.2
      | succ j' =>
        have hj' := hmin j' (by omega)
        calc c * 2 ^ (j' + 1) = c * 2 * 2 ^ j' := by ring
          _ < need := hj'
  · next h => exact ⟨0, by simp, fun j hj => absurd hj (Nat.not_lt_zero j)⟩
termination_by need - c
decreasing_by omega

/-- A single callback invocation advances `size` by exactly the number of
bytes it actually copied. -/
theorem size_write_callback (ok : Bool) (ctx : WriteContext) (chunk : List Nat) :
    (write_callback ok ctx chunk).size = ctx.size + appendedBy ok ctx chunk := by
  by_cases hg : ctx.size + chunk.length > ctx.capacity
  · cases ok <;> simp [write_callback, appendedBy, hg]
  · cases hd : ctx.data <;> simp [write_callback, appendedBy, hg, hd]

/-- When its reallocation (if any) succeeds, a callback invocation advances
`size` by the full chunk length. -/
theorem size_write_callback_true (ctx : WriteContext) (chunk : List Nat) :
    (write_callback true ctx chunk).size = ctx.size + chunk.length := by
  rw [size_write_callback]
  simp [appendedBy]

/-- A single callback invocation never decreases `capacity`. -/
theorem capacity_le_write_callback (ok : Bool) (ctx : WriteContext) (chunk : List Nat) :
    ctx.capacity ≤ (write_callback ok ctx chunk).capacity := by
  by_cases hg : ctx.size + chunk.length > ctx.capacity
  · cases ok
    · simp [write_callback, hg]
    · simp only [write_callback, hg, if_true, ite_true]
      refine le_trans ?_ (le_doubleUntil _ _)
      split <;> omega
  · cases hd : ctx.data <;> simp [write_callback, hg, hd]

/-- Any invocation that changes `capacity` either sets the 4096 floor (from
an empty buffer) or at least doubles the old capacity. -/
theorem grow_event_write_callback (ok : Bool) (ctx : WriteContext) (chunk : List Nat)
    (hne : (write_callback ok ctx chunk).capacity ≠ ctx.capacity) :
    (ctx.capacity = 0 ∧ 4096 ≤ (write_callback ok ctx chunk).capacity) ∨
      2 * ctx.capacity ≤ (write_callback ok ctx chunk).capacity := by
  by_cases hg : ctx.size + chunk.length > ctx.capacity
  · cases ok
    · simp [write_callback, hg] at hne
    · simp only [write_callback, hg, if_true, ite_true] at hne ⊢
      by_cases hc0 : ctx.capacity = 0
      · exact Or.inl ⟨hc0, by simpa [growCapacity, hc0] using le_doubleUntil 4096 (ctx.size + chunk.length)⟩
      · refine Or.inr ?_
        have := le_doubleUntil (ctx.capacity * 2) (ctx.size + chunk.length)
        simp only [growCapacity, hc0, if_false]
        omega
  · cases hd : ctx.data <;> simp [write_callback, hg, hd] at hne

/-- Overwriting inside the buffer's bounds keeps its length. -/
theorem storeChunk_length (buf : List Nat) (off : Nat) (chunk : List Nat)
    (h : off + chunk.length ≤ buf.length) :
    (storeChunk buf off chunk).length = buf.length := by
  simp [storeChunk, List.length_take, List.length_drop]
  omega

/-- `memcpy` at offset `off` leaves the first `off` bytes untouched. -/
theorem storeChunk_take_front (buf : List Nat) (off : Nat) (chunk : List Nat)
    (h : off ≤ buf.length) :
    (storeChunk buf off chunk).take off = buf.take off := by
  unfold storeChunk
  rw [List.append_assoc, List.take_append_of_le_length (by simp [List.length_take]; omega),
    List.take_take]
  simp

/-- After `memcpy` at offset `off`, the first `off + chunk.length` bytes are
the old prefix followed by the chunk. -/
theorem storeChunk_take_full (buf : List Nat) (off : Nat) (chunk : List Nat)
    (h : off ≤ buf.length) :
    (storeChunk buf off chunk).take (off + chunk.length) = buf.take off ++ chunk := by
  unfold storeChunk
  have hlen : (buf.take off ++ chunk).length = off + chunk.length := by
    simp [List.length_take]
    omega
  rw [List.take_append_of_le_length (by omega), List.take_of_length_le (by omega)]

/-- A successful `realloc` to at least the current block size yields a block
of exactly the requested size. -/
theorem reallocBytes_length (data : Option (List Nat)) (newCapacity : Nat)
    (h : (data.getD []).length ≤ newCapacity) :
    (reallocBytes data newCapacity).length = newCapacity := by
  simp [reallocBytes, List.length_take, List.length_replicate]
  omega

/-- A successful `realloc` preserves any in-bounds prefix of the old block. -/
theorem reallocBytes_take (data : Option (List Nat)) (newCapacity k : Nat)
    (hk : k ≤ (data.getD []).length) (hk2 : k ≤ newCapacity) :
    (reallocBytes data newCapacity).take k = (data.getD []).take k := by
  unfold reallocBytes
  rw [List.take_append_of_le_length (by simp [List.length_take]; omega), List.take_take,
    min_eq_left hk2]

/-- The initial context represents the empty byte sequence. -/
theorem goodCtx_emptyContext : goodCtx emptyContext [] :=
  ⟨rfl, le_rfl, Or.inl ⟨rfl, rfl⟩⟩

/-- A callback invocation whose reallocation (if any) succeeds extends the
represented byte sequence by exactly the incoming chunk. -/
theorem goodCtx_write_callback_true (ctx : WriteContext) (content chunk : List Nat)
    (hg : goodCtx ctx content) :
    goodCtx (write_callback true ctx chunk) (content ++ chunk) := by
  obtain ⟨hsz, hsc, hdata⟩ := hg
  have hdl : (ctx.data.getD []).length = ctx.capacity := by
    rcases hdata with ⟨hnone, hcap⟩ | ⟨buf, hbuf, hlen, _⟩
    · simp [hnone, hcap]
    · simp [hbuf, hlen]
  have hold : (ctx.data.getD []).take ctx.size = content := by
    rcases hdata with ⟨hnone, hcap⟩ | ⟨buf, hbuf, _, htake⟩
    · have hs0 : ctx.size = 0 := by omega
      have hc : content = [] := by
        rw [hs0] at hsz
        exact List.length_eq_zero.mp hsz.symm
      simp [hnone, hc]
    · simp [hbuf, htake]
  by_cases hgrow : ctx.size + chunk.length > ctx.capacity
  · simp only [write_callback, hgrow, ite_true, if_true]
    have hstart : 0 < (if ctx.capacity = 0 then 4096 else ctx.capacity * 2) := by
      split <;> omega
    have hneed : ctx.size + chunk.length ≤ growCapacity ctx.capacity (ctx.size + chunk.length) :=
      need_le_doubleUntil _ _ hstart
    have hrl : (reallocBytes ctx.data (growCapacity ctx.capacity (ctx.size + chunk.length))).length
        = growCapacity ctx.capacity (ctx.size + chunk.length) :=
      reallocBytes_length _ _ (by omega)
    refine ⟨by simp [hsz], by simpa using hneed, Or.inr ⟨_, rfl, ?_, ?_⟩⟩
    · show (storeChunk _ ctx.size chunk).length = growCapacity ctx.capacity (ctx.size + chunk.length)
      rw [storeChunk_length _ _ _ (by rw [hrl]; omega), hrl]
    · show (storeChunk _ ctx.size chunk).take (ctx.size + chunk.length) = content ++ chunk
      rw [storeChunk_take_full _ _ _ (by rw [hrl]; omega),
        reallocBytes_take _ _ _ (by omega) (by omega), hold]
  · rcases hdata with ⟨hnone, hcap⟩ | ⟨buf, hbuf, hlen, htake⟩
    · have hchunk : chunk = [] := List.length_eq_zero.mp (by omega)
      have hs0 : ctx.size = 0 := by omega
      have hc : content = [] := by
        rw [hs0] at hsz
        exact List.length_eq_zero.mp hsz.symm
      have hres : write_callback true ctx chunk = ctx := by
        subst hchunk
        simp only [write_callback, hnone]
        split
        · next hcond => exact absurd hcond (by simpa using hgrow)
        · rw [← hnone]
          exact rfl
      rw [hres, hc, hchunk]
      exact ⟨by simp [hs0], hsc, Or.inl ⟨hnone, hcap⟩⟩
    · simp only [write_callback, hbuf, hgrow, ite_false, if_false]
      refine ⟨by simp [hsz], by show ctx.size + chunk.length ≤ ctx.capacity; omega,
        Or.inr ⟨_, rfl, ?_, ?_⟩⟩
      · show (storeChunk buf ctx.size chunk).length = ctx.capacity
        rw [storeChunk_length buf ctx.size chunk (by omega), hlen]
      · show (storeChunk buf ctx.size chunk).take (ctx.size + chunk.length) = content ++ chunk
        rw [storeChunk_take_full buf ctx.size chunk (by omega), htake]

/-- Running a callback sequence whose reallocations all succeed appends the
concatenation of the chunks to the represented byte sequence. -/
theorem goodCtx_runAppends (reallocOk : Nat → Bool) (hok : ∀ j, reallocOk j = true)
    (chunks : List (List Nat)) :
    ∀ (i : Nat) (ctx : WriteContext) (content : List Nat), goodCtx ctx content →
      goodCtx (runAppends reallocOk i ctx chunks) (content ++ chunks.flatten) := by
  induction chunks with
  | nil => intro i ctx content hg; simpa [runAppends] using hg
  | cons c rest ih =>
    intro i ctx content hg
    have hstep : goodCtx (write_callback (reallocOk i) ctx c) (content ++ c) := by
      rw [hok i]
      exact goodCtx_write_callback_true ctx content c hg
    have := ih (i + 1) (write_callback (reallocOk i) ctx c) (content ++ c) hstep
    simpa [runAppends, List.append_assoc] using this

/-- `capacity` never decreases across a callback sequence. -/
theorem capacity_le_runAppends (reallocOk : Nat → Bool) (chunks : List (List Nat)) :
    ∀ (i : Nat) (ctx : WriteContext),
      ctx.capacity ≤ (runAppends reallocOk i ctx chunks).capacity := by
  induction chunks with
  | nil => intro i ctx; simp [runAppends]
  | cons c rest ih =>
    intro i ctx
    calc ctx.capacity ≤ (write_callback (reallocOk i) ctx c).capacity :=
          capacity_le_write_callback _ _ _
      _ ≤ (runAppends reallocOk i ctx (c :: rest)).capacity := by
          rw [runAppends]; exact ih (i + 1) _

/-- Final `size` is the initial `size` plus the bytes actually appended. -/
theorem size_runAppends (reallocOk : Nat → Bool) (chunks : List (List Nat)) :
    ∀ (i : Nat) (ctx : WriteContext),
      (runAppends reallocOk i ctx chunks).size = ctx.size + totalAppended reallocOk i ctx chunks := by
  induction chunks with
  | nil => intro i ctx; simp [runAppends, totalAppended]
  | cons c rest ih =>
    intro i ctx
    rw [runAppends, totalAppended, ih (i + 1) _, size_write_callback]
    omega

/-- When every reallocation succeeds, the bytes actually appended are exactly
the sum of the chunk sizes. -/
theorem totalAppended_of_allOk (reallocOk : Nat → Bool) (hok : ∀ j, reallocOk j = true)
    (chunks : List (List Nat)) :
    ∀ (i : Nat) (ctx : WriteContext), totalAppended reallocOk i ctx chunks = sumSizes chunks := by
  induction chunks with
  | nil => intro i ctx; simp [totalAppended, sumSizes]
  | cons c rest ih =>
    intro i ctx
    rw [totalAppended, ih (i + 1) _]
    have : appendedBy (reallocOk i) ctx c = c.length := by
      rw [hok i]
      simp [appendedBy]
    rw [this]
    simp [sumSizes]

/-- The spec invariant holds of the freshly initialised context. -/
theorem ctxInv_emptyContext : ctxInv emptyContext :=
  ⟨le_rfl, fun h => absurd h (by simp [emptyContext])⟩

/-- Every execution of `write_callback` — reallocation succeeding or failing —
preserves the spec invariant. -/
theorem ctxInv_write_callback (ok : Bool) (ctx : WriteContext) (chunk : List Nat)
    (h : ctxInv ctx) : ctxInv (write_callback ok ctx chunk) := by
  obtain ⟨h1, h2⟩ := h
  by_cases hgrow : ctx.size + chunk.length > ctx.capacity
  · cases ok
    · simpa [write_callback, hgrow] using ⟨h1, h2⟩
    · simp only [write_callback, hgrow, ite_true, if_true]
      have hstart : 0 < (if ctx.capacity = 0 then 4096 else ctx.capacity * 2) := by
        split <;> omega
      exact ⟨need_le_doubleUntil _ _ hstart, fun _ => rfl⟩
  · cases hd : ctx.data with
    | none =>
      have hchunk : chunk = [] := by
        rcases chunk with _ | ⟨b, rest⟩
        · rfl
        · exfalso
          have hc0 : ctx.capacity = 0 := by
            by_contra hc
            have := h2 (Nat.pos_of_ne_zero hc)
            rw [hd] at this
            simp at this
          simp [hc0] at hgrow
      have hres : write_callback ok ctx chunk = ctx := by
        subst hchunk
        simp only [write_callback, hd]
        split
        · next hcond => exact absurd hcond (by simpa using hgrow)
        · rw [← hd]
          exact rfl
      rw [hres]
      exact ⟨h1, h2⟩
    | some buf =>
      refine ⟨?_, ?_⟩
      · simp [write_callback, hgrow, hd]
        omega
      · simp [write_callback, hgrow, hd]

/-- Once the modulo-`2 ^ w` doubling wraps to `0`, it stays `0` forever. -/
theorem iterDouble_zero (w : Nat) : ∀ k, iterDouble w k 0 = 0
  | 0 => rfl
  | k + 1 => by
      rw [iterDouble]
      simpa [stepW] using iterDouble_zero w k

/-- While the target is at most `2 ^ (w - 1)`, the modulo-`2 ^ w` doubling
step does not wrap and strictly increases any positive value below the
target. -/
theorem stepW_strict_increase (w c need : Nat) (hc : 0 < c) (hlt : c < need)
    (hneed : need ≤ 2 ^ (w - 1)) : c < stepW w c := by
  rcases w with _ | w'
  · have h1 : need ≤ 1 := by simpa using hneed
    exact absurd hlt (by omega)
  · have hcw : c < 2 ^ w' := lt_of_lt_of_le hlt (by simpa using hneed)
    have hc2 : c * 2 < 2 ^ (w' + 1) := by
      have : 2 ^ (w' + 1) = 2 ^ w' * 2 := by rw [pow_succ]
      omega
    simp only [stepW]
    rw [Nat.mod_eq_of_lt hc2]
    omega

/-- From any positive start, the modulo-`2 ^ w` doubling loop reaches any
target at most `2 ^ (w - 1)` in finitely many iterations. -/
theorem doubling_reaches (w need c : Nat) (hneed : need ≤ 2 ^ (w - 1)) (hc : 0 < c) :
    ∃ k, need ≤ iterDouble w k c := by
  by_cases hlt : c < need
  · rcases w with _ | w'
    · have h1 : need ≤ 1 := by simpa using hneed
      exact absurd hlt (by omega)
    · have hcw : c < 2 ^ w' := lt_of_lt_of_le hlt (by simpa using hneed)
      have hc2 : c * 2 < 2 ^ (w' + 1) := by
        have : 2 ^ (w' + 1) = 2 ^ w' * 2 := by rw [pow_succ]
        omega
      have hstep : stepW (w' + 1) c = c * 2 := by
        simp only [stepW]
        exact Nat.mod_eq_of_lt hc2
      obtain ⟨k, hk⟩ := doubling_reaches (w' + 1) need (c * 2) hneed (by omega)
      refine ⟨k + 1, ?_⟩
      rw [iterDouble, hstep]
      exact hk
  · exact ⟨0, by simpa [iterDouble] using Nat.le_of_not_lt hlt⟩
termination_by need - c
decreasing_by omega

/-- The common post-encoder glue of both adapters, abstracted over the
encoder's observable behaviour; each adapter is definitionally this. -/
def adapterCore (encoded : Bool × List (List Nat)) (reallocOk : Nat → Bool) : AdapterResult :=
  let ctx := runAppends reallocOk 0 emptyContext encoded.2
  if encoded.1 ∧ 0 < ctx.size then
    { ret := 1, output := ctx.data, output_len := some ctx.size, freed := false }
  else
    { ret := 0, output := none, output_len := none, freed := ctx.data.isSome }

/-- The PNG adapter is the common glue applied to its encoder's behaviour. -/
theorem png_eq_adapterCore
    (E : Int → Int → Int → List Nat → Int → Bool × List (List Nat))
    (reallocOk : Nat → Bool) (w h comp : Int) (pix : List Nat) (stride : Int) :
    stb_write_png_to_memory E reallocOk w h comp pix stride =
      adapterCore (E w h comp pix stride) reallocOk := rfl

/-- The JPEG adapter is the common glue applied to its encoder's behaviour. -/
theorem jpg_eq_adapterCore
    (E : Int → Int → Int → List Nat → Int → Bool × List (List Nat))
    (reallocOk : Nat → Bool) (w h comp : Int) (pix : List Nat) (quality : Int) :
    stb_write_jpg_to_memory E reallocOk w h comp pix quality =
      adapterCore (E w h comp pix quality) reallocOk := rfl

/-- The glue returns `1` exactly when the encoder succeeded and at least one
byte ended up in the context. -/
theorem adapterCore_ret_one_iff (p : Bool × List (List Nat)) (reallocOk : Nat → Bool) :
    (adapterCore p reallocOk).ret = 1 ↔
      p.1 = true ∧ 0 < (runAppends reallocOk 0 emptyContext p.2).size := by
  simp only [adapterCore]
  split
  · next hcond => simp [hcond]
  · next hcond => simp [hcond]

/-- On the success path the caller slots receive the context's buffer
pointer and size. -/
theorem adapterCore_success (p : Bool × List (List Nat)) (reallocOk : Nat → Bool)
    (h : (adapterCore p reallocOk).ret = 1) :
    (adapterCore p reallocOk).output = (runAppends reallocOk 0 emptyContext p.2).data ∧
      (adapterCore p reallocOk).output_len =
        some (runAppends reallocOk 0 emptyContext p.2).size := by
  have hc := (adapterCore_ret_one_iff p reallocOk).mp h
  simp [adapterCore, hc.1, hc.2]

/-- On the failure path: return `0`, slots untouched, buffer freed exactly
when one was allocated. -/
theorem adapterCore_failure (p : Bool × List (List Nat)) (reallocOk : Nat → Bool)
    (h : p.1 = false ∨ (runAppends reallocOk 0 emptyContext p.2).size = 0) :
    (adapterCore p reallocOk).ret = 0 ∧ (adapterCore p reallocOk).output = none ∧
      (adapterCore p reallocOk).output_len = none ∧
      (adapterCore p reallocOk).freed =
        (runAppends reallocOk 0 emptyContext p.2).data.isSome := by
  have hc : ¬(p.1 = true ∧ 0 < (runAppends reallocOk 0 emptyContext p.2).size) := by
    rcases h with h | h <;> simp [h]
  simp [adapterCore, hc]

/-- If the start value already meets the target, the doubling loop exits
immediately. -/
theorem doubleUntil_eq_of_ge (c need : Nat) (h : need ≤ c) : doubleUntil c need = c := by
  rw [doubleUntil]
  split
  · next h2 => exact absurd h2.2 (by omega)
  · rfl

/-- C1: for every successful encode call (PNG or JPEG adapter returning 1),
the value stored in the output-length slot equals the total number of bytes
actually appended across the encoder's callback invocations; when every
reallocation succeeds this total is the sum of the chunk sizes passed to
`write_callback` during the call. -/
theorem claim_C1
    (Epng Ejpg : Int → Int → Int → List Nat → Int → Bool × List (List Nat))
    (reallocOk : Nat → Bool) (w h comp : Int) (pix : List Nat) (stride quality : Int) :
    ((stb_write_png_to_memory Epng reallocOk w h comp pix stride).ret = 1 →
      (stb_write_png_to_memory Epng reallocOk w h comp pix stride).output_len =
          some (totalAppended reallocOk 0 emptyContext (Epng w h comp pix stride).2) ∧
        ((∀ j, reallocOk j = true) →
          (stb_write_png_to_memory Epng reallocOk w h comp pix stride).output_len =
            some (sumSizes (Epng w h comp pix stride).2))) ∧
    ((stb_write_jpg_to_memory Ejpg reallocOk w h comp pix quality).ret = 1 →
      (stb_write_jpg_to_memory Ejpg reallocOk w h comp pix quality).output_len =
          some (totalAppended reallocOk 0 emptyContext (Ejpg w h comp pix quality).2) ∧
        ((∀ j, reallocOk j = true) →
          (stb_write_jpg_to_memory Ejpg reallocOk w h comp pix quality).output_len =
            some (sumSizes (Ejpg w h comp pix quality).2))) := by
  constructor
  · intro hret
    rw [png_eq_adapterCore] at hret ⊢
    have hs := (adapterCore_success _ reallocOk hret).2
    constructor
    · rw [hs, size_runAppends]
      norm_num [emptyContext]
    · intro hok
      rw [hs, size_runAppends, totalAppended_of_allOk reallocOk hok]
      norm_num [emptyContext]
  · intro hret
    rw [jpg_eq_adapterCore] at hret ⊢
    have hs := (adapterCore_success _ reallocOk hret).2
    constructor
    · rw [hs, size_runAppends]
      norm_num [emptyContext]
    · intro hok
      rw [hs, size_runAppends, totalAppended_of_allOk reallocOk hok]
      norm_num [emptyContext]

/-- Witness for C1 at a concrete encoder behaviour. -/
theorem claim_C1_witness :
    (stb_write_png_to_memory (fun _ _ _ _ _ => (true, [[1, 2, 3]])) (fun _ => true)
        1 1 3 [7, 7, 7] 3).output_len = some (sumSizes [[1, 2, 3]]) := by
  have h := (claim_C1 (fun _ _ _ _ _ => (true, [[1, 2, 3]])) (fun _ _ _ _ _ => (true, [[1, 2, 3]]))
    (fun _ => true) 1 1 3 [7, 7, 7] 3 90).1 (by decide)
  exact h.2 (fun _ => rfl)

/-- C2: for any sequence of `write_callback` calls whose reallocations all
succeed, starting from the empty context, the first `Σci` bytes of the
final buffer are the concatenation of the chunks in call order, and after
every individual append the capacity is at least the cumulative size. -/
theorem claim_C2 (reallocOk : Nat → Bool) (chunks : List (List Nat))
    (hok : ∀ j, reallocOk j = true) :
    (dataBytes (runAppends reallocOk 0 emptyContext chunks)).take (sumSizes chunks)
        = chunks.flatten ∧
      ∀ m, sumSizes (chunks.take m)
          ≤ (runAppends reallocOk 0 emptyContext (chunks.take m)).capacity := by
  have hgood : ∀ cs : List (List Nat),
      goodCtx (runAppends reallocOk 0 emptyContext cs) cs.flatten := fun cs => by
    simpa using goodCtx_runAppends reallocOk hok cs 0 emptyContext [] goodCtx_emptyContext
  constructor
  · obtain ⟨hsz, hsc, hdata⟩ := hgood chunks
    have hsum : sumSizes chunks = chunks.flatten.length := by
      simp [sumSizes, List.length_flatten]
    rcases hdata with ⟨hnone, hcap0⟩ | ⟨buf, hbuf, hblen, htake⟩
    · have hfl : chunks.flatten = [] := by
        have : chunks.flatten.length = 0 := by omega
        exact List.length_eq_zero.mp this
      simp [dataBytes, hnone, hfl]
    · have hdb : dataBytes (runAppends reallocOk 0 emptyContext chunks) = buf := by
        simp [dataBytes, hbuf]
      rw [hdb, hsum, ← hsz, htake]
  · intro m
    obtain ⟨hsz, hsc, _⟩ := hgood (chunks.take m)
    have hsum : sumSizes (chunks.take m) = (chunks.take m).flatten.length := by
      simp [sumSizes, List.length_flatten]
    omega

/-- Witness for C2 at a concrete chunk sequence. -/
theorem claim_C2_witness :
    (dataBytes (runAppends (fun _ => true) 0 emptyContext [[1, 2], [3]])).take
        (sumSizes [[1, 2], [3]]) = [1, 2, 3] ∧
      sumSizes ([[1, 2], [3]].take 1)
        ≤ (runAppends (fun _ => true) 0 emptyContext ([[1, 2], [3]].take 1)).capacity := by
  have h := claim_C2 (fun _ => true) [[1, 2], [3]] (fun _ => rfl)
  exact ⟨by simpa using h.1, h.2 1⟩

/-- C3: each adapter returns 1 exactly when the encoder reports success and
at least one byte was appended (`size > 0`); in that case the output
pointer-slot receives the accumulated buffer and the output-length slot
the context's size. -/
theorem claim_C3
    (Epng Ejpg : Int → Int → Int → List Nat → Int → Bool × List (List Nat))
    (reallocOk : Nat → Bool) (w h comp : Int) (pix : List Nat) (stride quality : Int) :
    ((stb_write_png_to_memory Epng reallocOk w h comp pix stride).ret = 1 ↔
      (Epng w h comp pix stride).1 = true ∧
        0 < (runAppends reallocOk 0 emptyContext (Epng w h comp pix stride).2).size) ∧
    ((stb_write_png_to_memory Epng reallocOk w h comp pix stride).ret = 1 →
      (stb_write_png_to_memory Epng reallocOk w h comp pix stride).output =
          (runAppends reallocOk 0 emptyContext (Epng w h comp pix stride).2).data ∧
        (stb_write_png_to_memory Epng reallocOk w h comp pix stride).output_len =
          some (runAppends reallocOk 0 emptyContext (Epng w h comp pix stride).2).size) ∧
    ((stb_write_jpg_to_memory Ejpg reallocOk w h comp pix quality).ret = 1 ↔
      (Ejpg w h comp pix quality).1 = true ∧
        0 < (runAppends reallocOk 0 emptyContext (Ejpg w h comp pix quality).2).size) ∧
    ((stb_write_jpg_to_memory Ejpg reallocOk w h comp pix quality).ret = 1 →
      (stb_write_jpg_to_memory Ejpg reallocOk w h comp pix quality).output =
          (runAppends reallocOk 0 emptyContext (Ejpg w h comp pix quality).2).data ∧
        (stb_write_jpg_to_memory Ejpg reallocOk w h comp pix quality).output_len =
          some (runAppends reallocOk 0 emptyContext (Ejpg w h comp pix quality).2).size) := by
  refine ⟨?_, ?_, ?_, ?_⟩
  · rw [png_eq_adapterCore]
    exact adapterCore_ret_one_iff _ _
  · intro hret
    rw [png_eq_adapterCore] at hret ⊢
    exact adapterCore_success _ _ hret
  · rw [jpg_eq_adapterCore]
    exact adapterCore_ret_one_iff _ _
  · intro hret
    rw [jpg_eq_adapterCore] at hret ⊢
    exact adapterCore_success _ _ hret

/-- Witness for C3 at a concrete successful encode. -/
theorem claim_C3_witness :
    (stb_write_png_to_memory (fun _ _ _ _ _ => (true, [[9]])) (fun _ => true)
        1 1 3 [7] 3).output = (runAppends (fun _ => true) 0 emptyContext [[9]]).data ∧
      (stb_write_png_to_memory (fun _ _ _ _ _ => (true, [[9]])) (fun _ => true)
        1 1 3 [7] 3).output_len = some (runAppends (fun _ => true) 0 emptyContext [[9]]).size :=
  (claim_C3 (fun _ _ _ _ _ => (true, [[9]])) (fun _ _ _ _ _ => (true, [[9]]))
    (fun _ => true) 1 1 3 [7] 3 90).2.1 (by decide)

/-- C4: whenever the encoder reports failure or zero bytes were produced,
the adapter returns 0, the output slots are left untouched, and the
partially accumulated buffer (if any) is freed before returning. -/
theorem claim_C4
    (Epng Ejpg : Int → Int → Int → List Nat → Int → Bool × List (List Nat))
    (reallocOk : Nat → Bool) (w h comp : Int) (pix : List Nat) (stride quality : Int)
    (hpng : (Epng w h comp pix stride).1 = false ∨
      (runAppends reallocOk 0 emptyContext (Epng w h comp pix stride).2).size = 0)
    (hjpg : (Ejpg w h comp pix quality).1 = false ∨
      (runAppends reallocOk 0 emptyContext (Ejpg w h comp pix quality).2).size = 0) :
    ((stb_write_png_to_memory Epng reallocOk w h comp pix stride).ret = 0 ∧
      (stb_write_png_to_memory Epng reallocOk w h comp pix stride).output = none ∧
      (stb_write_png_to_memory Epng reallocOk w h comp pix stride).output_len = none ∧
      (stb_write_png_to_memory Epng reallocOk w h comp pix stride).freed =
        (runAppends reallocOk 0 emptyContext (Epng w h comp pix stride).2).data.isSome) ∧
    ((stb_write_jpg_to_memory Ejpg reallocOk w h comp pix quality).ret = 0 ∧
      (stb_write_jpg_to_memory Ejpg reallocOk w h comp pix quality).output = none ∧
      (stb_write_jpg_to_memory Ejpg reallocOk w h comp pix quality).output_len = none ∧
      (stb_write_jpg_to_memory Ejpg reallocOk w h comp pix quality).freed =
        (runAppends reallocOk 0 emptyContext (Ejpg w h comp pix quality).2).data.isSome) := by
  constructor
  · rw [png_eq_adapterCore]
    exact adapterCore_failure _ _ hpng
  · rw [jpg_eq_adapterCore]
    exact adapterCore_failure _ _ hjpg

/-- Witness for C4 at a concrete failing encode. -/
theorem claim_C4_witness :
    (stb_write_png_to_memory (fun _ _ _ _ _ => (false, [])) (fun _ => true) 1 1 3 [] 3).ret = 0 ∧
      (stb_write_jpg_to_memory (fun _ _ _ _ _ => (false, [])) (fun _ => true) 1 1 3 [] 90).ret
        = 0 := by
  have h := claim_C4 (fun _ _ _ _ _ => (false, [])) (fun _ _ _ _ _ => (false, []))
    (fun _ => true) 1 1 3 [] 3 90 (Or.inl rfl) (Or.inl rfl)
  exact ⟨h.1.1, h.2.1⟩

/-- C5: the spec invariant (`size ≤ capacity`, `data` non-null whenever
`capacity > 0`) holds of the initial context `{NULL, 0, 0}` and is preserved
by every execution of `write_callback`, including the branch where
reallocation fails. -/
theorem claim_C5 :
    ctxInv emptyContext ∧
      ∀ (ok : Bool) (ctx : WriteContext) (chunk : List Nat),
        ctxInv ctx → ctxInv (write_callback ok ctx chunk) :=
  ⟨ctxInv_emptyContext, fun ok ctx chunk hinv => ctxInv_write_callback ok ctx chunk hinv⟩

/-- Witness for C5: the invariant transported through one failing-realloc
append from the initial context. -/
theorem claim_C5_witness : ctxInv emptyContext ∧ ctxInv (write_callback false emptyContext [1]) :=
  ⟨claim_C5.1,
    claim_C5.2 false emptyContext [1] ⟨le_rfl, fun hpos => absurd hpos (by simp [emptyContext])⟩⟩

/-- C6: when an append of `n` bytes would exceed the capacity, the new
capacity starts from 4096 (capacity 0) or `capacity * 2` and doubles until
it reaches `size + n`; storage is reallocated to exactly that capacity and
the existing bytes `0..size` are preserved. -/
theorem claim_C6 (ctx : WriteContext) (chunk : List Nat)
    (hgrow : ctx.capacity < ctx.size + chunk.length)
    (hlen : (dataBytes ctx).length = ctx.capacity)
    (hsz : ctx.size ≤ ctx.capacity) :
    (write_callback true ctx chunk).capacity
        = growCapacity ctx.capacity (ctx.size + chunk.length) ∧
      (∃ k, (write_callback true ctx chunk).capacity
            = (if ctx.capacity = 0 then 4096 else ctx.capacity * 2) * 2 ^ k ∧
          ctx.size + chunk.length ≤ (write_callback true ctx chunk).capacity ∧
          ∀ j, j < k → (if ctx.capacity = 0 then 4096 else ctx.capacity * 2) * 2 ^ j
              < ctx.size + chunk.length) ∧
      (dataBytes (write_callback true ctx chunk)).length
        = (write_callback true ctx chunk).capacity ∧
      (dataBytes (write_callback true ctx chunk)).take ctx.size
        = (dataBytes ctx).take ctx.size := by
  have hstart : 0 < (if ctx.capacity = 0 then 4096 else ctx.capacity * 2) := by
    split <;> omega
  have hneed : ctx.size + chunk.length
      ≤ growCapacity ctx.capacity (ctx.size + chunk.length) := by
    rw [growCapacity]
    exact need_le_doubleUntil _ _ hstart
  have holdlen : (ctx.data.getD []).length = ctx.capacity := hlen
  have hrl : (reallocBytes ctx.data (growCapacity ctx.capacity
        (ctx.size + chunk.length))).length
      = growCapacity ctx.capacity (ctx.size + chunk.length) :=
    reallocBytes_length _ _ (by rw [holdlen]; omega)
  have hres : write_callback true ctx chunk =
      { data := some (storeChunk (reallocBytes ctx.data
          (growCapacity ctx.capacity (ctx.size + chunk.length))) ctx.size chunk)
        size := ctx.size + chunk.length
        capacity := growCapacity ctx.capacity (ctx.size + chunk.length) } := by
    simp [write_callback, hgrow]
  rw [hres]
  refine ⟨rfl, ?_, ?_, ?_⟩
  · obtain ⟨k, hk, hmin⟩ := doubleUntil_pow (if ctx.capacity = 0 then 4096 else ctx.capacity * 2)
      (ctx.size + chunk.length) hstart
    refine ⟨k, ?_, hneed, hmin⟩
    show growCapacity ctx.capacity (ctx.size + chunk.length) = _
    rw [growCapacity]
    exact hk
  · simp only [dataBytes, Option.getD_some]
    rw [storeChunk_length _ _ _ (by rw [hrl]; omega), hrl]
  · simp only [dataBytes, Option.getD_some]
    rw [storeChunk_take_front _ _ _ (by rw [hrl]; omega),
      reallocBytes_take _ _ _ (by rw [holdlen]; omega) (by omega)]

/-- Witness for C6 at a concrete growing append. -/
theorem claim_C6_witness :
    (write_callback true ⟨some [5], 1, 1⟩ [9]).capacity = growCapacity 1 2 ∧
      (dataBytes (write_callback true ⟨some [5], 1, 1⟩ [9])).take 1
        = (dataBytes ⟨some [5], 1, 1⟩).take 1 := by
  have h := claim_C6 ⟨some [5], 1, 1⟩ [9] (by decide) rfl (by decide)
  exact ⟨h.1, h.2.2.2⟩

/-- C7: over any sequence of appends, capacity is monotonically
non-decreasing, and each growth event at least doubles the capacity or sets
the 4096-byte floor. -/
theorem claim_C7 :
    (∀ (ok : Bool) (ctx : WriteContext) (chunk : List Nat),
        ctx.capacity ≤ (write_callback ok ctx chunk).capacity ∧
          ((write_callback ok ctx chunk).capacity ≠ ctx.capacity →
            (ctx.capacity = 0 ∧ 4096 ≤ (write_callback ok ctx chunk).capacity) ∨
              2 * ctx.capacity ≤ (write_callback ok ctx chunk).capacity)) ∧
      ∀ (reallocOk : Nat → Bool) (i : Nat) (ctx : WriteContext) (chunks : List (List Nat)),
        ctx.capacity ≤ (runAppends reallocOk i ctx chunks).capacity :=
  ⟨fun ok ctx chunk => ⟨capacity_le_write_callback ok ctx chunk,
      grow_event_write_callback ok ctx chunk⟩,
    fun reallocOk i ctx chunks => capacity_le_runAppends reallocOk chunks i ctx⟩

/-- Witness for C7 at a concrete growth event (0 to the 4096 floor). -/
theorem claim_C7_witness :
    emptyContext.capacity ≤ (write_callback true emptyContext [1]).capacity ∧
      ((emptyContext.capacity = 0 ∧ 4096 ≤ (write_callback true emptyContext [1]).capacity) ∨
        2 * emptyContext.capacity ≤ (write_callback true emptyContext [1]).capacity) := by
  have hgc : growCapacity 0 1 = 4096 := by
    rw [growCapacity, if_pos rfl]
    exact doubleUntil_eq_of_ge 4096 1 (by norm_num)
  have hcap : (write_callback true emptyContext [1]).capacity = 4096 := by
    simp [write_callback, emptyContext, hgc]
  have h := claim_C7.1 true emptyContext [1]
  exact ⟨h.1, h.2 (by rw [hcap]; simp [emptyContext])⟩

/-- C8: if reallocation fails during an append, the call returns with no
error indication and the context is left entirely unchanged — `data`,
`size` and `capacity` keep their prior values. -/
theorem claim_C8 (ctx : WriteContext) (chunk : List Nat)
    (hgrow : ctx.capacity < ctx.size + chunk.length) :
    write_callback false ctx chunk = ctx := by
  simp [write_callback, hgrow]

/-- Witness for C8 at a concrete failing append. -/
theorem claim_C8_witness : write_callback false emptyContext [1] = emptyContext :=
  claim_C8 emptyContext [1] (by decide)

/-- C9: two encode calls of the same adapter with the same image arguments
produce identical results, provided the external encoder behaves the same
both times (determinism assumption) and the allocator does too — the
adapter itself introduces no nondeterminism. -/
theorem claim_C9
    (Epng1 Epng2 Ejpg1 Ejpg2 : Int → Int → Int → List Nat → Int → Bool × List (List Nat))
    (ok1 ok2 : Nat → Bool) (w h comp : Int) (pix : List Nat) (stride quality : Int)
    (hpng : Epng1 w h comp pix stride = Epng2 w h comp pix stride)
    (hjpg : Ejpg1 w h comp pix quality = Ejpg2 w h comp pix quality)
    (hok : ∀ j, ok1 j = ok2 j) :
    stb_write_png_to_memory Epng1 ok1 w h comp pix stride
        = stb_write_png_to_memory Epng2 ok2 w h comp pix stride ∧
      stb_write_jpg_to_memory Ejpg1 ok1 w h comp pix quality
        = stb_write_jpg_to_memory Ejpg2 ok2 w h comp pix quality := by
  have hokf : ok1 = ok2 := funext hok
  subst hokf
  rw [png_eq_adapterCore, png_eq_adapterCore, jpg_eq_adapterCore, jpg_eq_adapterCore,
    hpng, hjpg]
  exact ⟨rfl, rfl⟩

/-- Witness for C9 at a concrete repeated encode. -/
theorem claim_C9_witness :
    stb_write_png_to_memory (fun _ _ _ _ _ => (true, [[1]])) (fun _ => true) 1 1 1 [0] 1
        = stb_write_png_to_memory (fun _ _ _ _ _ => (true, [[1]])) (fun _ => true) 1 1 1 [0] 1 ∧
      stb_write_jpg_to_memory (fun _ _ _ _ _ => (true, [[1]])) (fun _ => true) 1 1 1 [0] 1
        = stb_write_jpg_to_memory (fun _ _ _ _ _ => (true, [[1]])) (fun _ => true) 1 1 1 [0] 1 :=
  claim_C9 _ _ _ _ _ _ 1 1 1 [0] 1 1 rfl rfl (fun _ => rfl)

/-- C10: under `size_t` arithmetic modulo `2 ^ w` (with `w ≥ 13` so that
4096 is representable), the capacity-doubling loop terminates whenever the
required total is at most `2 ^ (w - 1)` — below that bound the value
strictly increases each iteration — while for larger totals there is no
such guarantee: doubling can wrap to 0 and then never grow, as the concrete
run with `w = 16`, capacity `2 ^ 15` and target `2 ^ 15 + 1` shows. -/
theorem claim_C10 :
    (∀ w capacity need, 13 ≤ w → capacity < need → need ≤ 2 ^ (w - 1) →
        ∃ k, need ≤ iterDouble w k (startW w capacity)) ∧
      (∀ w c need, 0 < c → c < need → need ≤ 2 ^ (w - 1) → c < stepW w c) ∧
      (∀ k, iterDouble 16 k (startW 16 (2 ^ 15)) < 2 ^ 15 + 1) := by
  refine ⟨?_, ?_, ?_⟩
  · intro w capacity need hw hcap hneed
    by_cases hc0 : capacity = 0
    · have h2w : 4096 < 2 ^ w :=
        lt_of_lt_of_le (by norm_num) (Nat.pow_le_pow_right (by norm_num) hw)
      have hstart : startW w capacity = 4096 := by
        simp [startW, hc0, Nat.mod_eq_of_lt h2w]
      rw [hstart]
      exact doubling_reaches w need 4096 hneed (by norm_num)
    · have hw1 : 1 ≤ w := le_trans (by norm_num) hw
      have h2 : 2 ^ (w - 1) * 2 = 2 ^ w := by
        rw [← pow_succ]
        congr 1
        omega
      have hlt2 : capacity * 2 < 2 ^ w := by
        have : capacity < 2 ^ (w - 1) := lt_of_lt_of_le hcap hneed
        omega
      have hstart : startW w capacity = capacity * 2 := by
        simp [startW, hc0, Nat.mod_eq_of_lt hlt2]
      rw [hstart]
      exact doubling_reaches w need (capacity * 2) hneed (by omega)
  · intro w c need hc hlt hneed
    exact stepW_strict_increase w c need hc hlt hneed
  · intro k
    have hstart : startW 16 (2 ^ 15) = 0 := by norm_num [startW]
    rw [hstart, iterDouble_zero]
    norm_num

/-- Witness for C10 at concrete widths, capacities and targets. -/
theorem claim_C10_witness :
    (∃ k, 5000 ≤ iterDouble 16 k (startW 16 0)) ∧ 1 < stepW 16 1 ∧
      iterDouble 16 3 (startW 16 (2 ^ 15)) < 2 ^ 15 + 1 :=
  ⟨claim_C10.1 16 0 5000 (by norm_num) (by norm_num) (by norm_num),
    claim_C10.2.1 16 1 2 (by norm_num) (by norm_num) (by norm_num),
    claim_C10.2.2 3⟩
